import Mathlib

/-!
Verification of the phosphor core: the chain iterator combinator
(`src/src/algorithm/chain.ts`) and the DOM geometry helpers
(`src/src/dom/query.ts`).

The chain combinator is embedded with an explicit heap of sub-iterator
objects, because its `clone` semantics is about aliasing of mutable
sub-iterator objects: a `ChainIterator` holds heap ids, `next` mutates
the heap entry of its active sub-iterator, and the defensive `cloned`
flag makes every newly pulled sub-iterator be copied to a fresh heap
cell first.  Recursion in `next` is encoded structurally over a gas
parameter that is always given one more than the (provably sufficient)
termination measure, so all definitions evaluate by `decide`/`rfl`.
-/

/-- Modelled from the spec: the array-backed iterator adapter produced by
`iter` (the file `iterable.ts` is imported by `chain.ts` but is not part of
the supplied sources).  Per §4.1 of the spec it tracks a read cursor over an
immutable backing sequence; `next` returns the element under the cursor and
advances it, or signals exhaustion (with no state change, hence
no-resurrection) when the cursor has passed the end; `clone` copies the
cursor together with a reference to the same backing sequence. -/
structure ArrayIterator (T : Type) where
  data : List T
  index : Nat
deriving DecidableEq

/-- `ArrayIterator.next`: yield the element under the cursor and advance,
or signal exhaustion (`none`) leaving the state unchanged. -/
def ArrayIterator.next {T : Type} (st : ArrayIterator T) : Option T × ArrayIterator T :=
  if h : st.index < st.data.length then
    (some (st.data.get ⟨st.index, h⟩), ⟨st.data, st.index + 1⟩)
  else
    (none, st)

/-- The sequence of elements an `ArrayIterator` has not yet yielded. -/
def subRem {T : Type} (st : ArrayIterator T) : List T :=
  st.data.drop st.index

/-- The heap of sub-iterator objects; a heap id is an index into this list. -/
abbrev Heap (T : Type) := List (ArrayIterator T)

/-- Read a heap cell (out-of-range ids behave as an exhausted iterator). -/
def hGet {T : Type} (h : Heap T) (i : Nat) : ArrayIterator T :=
  (h[i]?).getD ⟨[], 0⟩

/-- Overwrite a heap cell (no-op when out of range, like `List.set`). -/
def hSet {T : Type} (h : Heap T) (i : Nat) (st : ArrayIterator T) : Heap T :=
  h.set i st

/-- The state of a `ChainIterator` from `chain.ts`.  The outer source
iterator (`this._source`, an array iterator over the sub-iterator objects)
is inlined as its immutable backing list of heap ids `srcIds` together with
its cursor `srcIdx`; `active` is `this._active` (a reference into the heap,
`none` when unset); `cloned` is the private `_cloned` flag. -/
structure ChainIterator where
  srcIds : List Nat
  srcIdx : Nat
  active : Option Nat
  cloned : Bool
deriving DecidableEq

/-- Termination measure for `ChainIterator.next`: each self-recursion of the
source's `next` (clearing `active`, or consuming one sub-iterator from the
outer source) strictly decreases it. -/
def chainMeasure (c : ChainIterator) : Nat :=
  2 * (c.srcIds.length - c.srcIdx) + (if c.active.isSome then 1 else 0)

/-- Gas-indexed transliteration of `ChainIterator.next` from `chain.ts`
(lines 85-101).  One outer step: if `active` is unset, pull the next
sub-iterator id from the outer source (returning exhaustion if the outer
source is spent), defensively cloning it into a fresh heap cell when
`cloned` is set; then pull one value from the active sub-iterator, and on
its exhaustion clear `active` and recurse.  The gas argument only funds the
self-recursion (`return this.next()` and the fall-through after setting
`active`); it is never exhausted when it starts above `chainMeasure`. -/
def chainNextGas {T : Type} : Nat → ChainIterator → Heap T → Option T × ChainIterator × Heap T
  | 0, c, h => (none, c, h)
  | gas + 1, c, h =>
    match c.active with
    | some aid =>
      match ArrayIterator.next (hGet h aid) with
      | (some v, st) => (some v, c, hSet h aid st)
      | (none, _) => chainNextGas gas { c with active := none } h
    | none =>
      match c.srcIds[c.srcIdx]? with
      | none => (none, c, h)
      | some id =>
        if c.cloned then
          chainNextGas gas
            { c with srcIdx := c.srcIdx + 1, active := some h.length }
            (h ++ [hGet h id])
        else
          chainNextGas gas { c with srcIdx := c.srcIdx + 1, active := some id } h

/-- `ChainIterator.next`, run with sufficient gas. -/
def ChainIterator.next {T : Type} (c : ChainIterator) (h : Heap T) :
    Option T × ChainIterator × Heap T :=
  chainNextGas (chainMeasure c + 1) c h

/-- Transliteration of `ChainIterator.clone` from `chain.ts` (lines 71-77):
the result's source is a clone of the outer iterator (same backing id list,
same cursor), its `active` is a copy of the current active sub-iterator
placed in a fresh heap cell (when set), and the `cloned` flag of **both**
the original and the result is set. -/
def ChainIterator.clone {T : Type} (c : ChainIterator) (h : Heap T) :
    ChainIterator × ChainIterator × Heap T :=
  match c.active with
  | none =>
    ({ c with cloned := true }, { c with active := none, cloned := true }, h)
  | some aid =>
    ({ c with cloned := true },
     { c with active := some h.length, cloned := true },
     h ++ [hGet h aid])

/-- Transliteration of `chain(...objects)` from `chain.ts` (lines 33-36),
applied to array sources: each source list is wrapped in a fresh
`ArrayIterator` (one heap cell per source, in order), and the chain starts
with the outer cursor at the beginning, no active sub-iterator, and the
`cloned` flag clear. -/
def chain {T : Type} (ls : List (List T)) : ChainIterator × Heap T :=
  (⟨List.range ls.length, 0, none, false⟩, ls.map (fun l => ⟨l, 0⟩))

/-- Drain a chain by repeated `next`, stopping at the exhaustion signal or
when the fuel runs out. -/
def drainFuel {T : Type} : Nat → ChainIterator → Heap T → List T
  | 0, _, _ => []
  | n + 1, c, h =>
    match ChainIterator.next c h with
    | (none, _, _) => []
    | (some v, c', h') => v :: drainFuel n c' h'

/-- The heap ids of the sub-iterators the chain has not yet pulled from the
outer source. -/
def futures (c : ChainIterator) : List Nat :=
  c.srcIds.drop c.srcIdx

/-- The heap id of the active sub-iterator, as a (zero- or one-element) list. -/
def activeIds (c : ChainIterator) : List Nat :=
  c.active.toList

/-- All heap ids whose cells determine the chain's remaining output. -/
def readIds (c : ChainIterator) : List Nat :=
  activeIds c ++ futures c

/-- The sequence of values the chain would still yield if drained alone:
the rest of the active sub-iterator followed by the full remainders of the
not-yet-pulled sub-iterators. -/
def remainingL {T : Type} (c : ChainIterator) (h : Heap T) : List T :=
  ((readIds c).map (fun i => subRem (hGet h i))).flatten

/-- Well-formedness of a chain over a heap: every not-yet-pulled id is a
valid heap cell, those ids are pairwise distinct, and the active id (when
set) is a valid cell distinct from all not-yet-pulled ids. -/
def WF {T : Type} (c : ChainIterator) (h : Heap T) : Prop :=
  (∀ id ∈ futures c, id < h.length) ∧ (futures c).Nodup ∧
    (∀ a ∈ activeIds c, a < h.length ∧ a ∉ futures c)

/-- Independence invariant for two chains over a shared heap after a clone:
both carry the sticky `cloned` flag, both are well-formed, and neither
chain's active cell is the other's active cell or among the other's
not-yet-pulled cells (the not-yet-pulled cells may be shared: with the
`cloned` flag set they are only ever copied, never mutated). -/
def Indep {T : Type} (d1 d2 : ChainIterator) (g : Heap T) : Prop :=
  d1.cloned = true ∧ d2.cloned = true ∧ WF d1 g ∧ WF d2 g ∧
    (∀ a ∈ activeIds d1, a ∉ activeIds d2 ∧ a ∉ futures d2) ∧
    (∀ a ∈ activeIds d2, a ∉ activeIds d1 ∧ a ∉ futures d1)

/-- Gas-indexed call-depth instrumentation of the source's `next`: counts
the number of nested invocations of `ChainIterator.next` (the `return
this.next()` at `chain.ts` line 100 re-enters the method once per
consecutive exhausted sub-iterator). -/
def nextDepthGas {T : Type} : Nat → ChainIterator → Heap T → Nat
  | 0, _, _ => 1
  | gas + 1, c, h =>
    match c.active with
    | some aid =>
      if (ArrayIterator.next (hGet h aid)).1.isSome then 1
      else 1 + nextDepthGas gas { c with active := none } h
    | none =>
      match c.srcIds[c.srcIdx]? with
      | none => 1
      | some id =>
        if c.cloned then
          if (ArrayIterator.next (hGet (h ++ [hGet h id]) h.length)).1.isSome then 1
          else 1 + nextDepthGas gas { c with srcIdx := c.srcIdx + 1, active := none }
            (h ++ [hGet h id])
        else
          if (ArrayIterator.next (hGet h id)).1.isSome then 1
          else 1 + nextDepthGas gas { c with srcIdx := c.srcIdx + 1, active := none } h

/-- Call-stack depth of one `ChainIterator.next` invocation. -/
def nextDepth {T : Type} (c : ChainIterator) (h : Heap T) : Nat :=
  nextDepthGas (chainMeasure c + 1) c h

/-- The state of the chain of `chain.ts` under the **sentinel** value
semantics of the source, for sources whose element type contains the value
`undefined` (embedded as `none`): the sub-iterator's `next` returns the raw
element, and the chain's test `value !== void 0` (line 96) cannot tell an
element that *is* `undefined` from sub-iterator exhaustion.  No cloning is
involved, so the sub-iterators are held by value. -/
structure SentinelChain (U : Type) where
  rest : List (ArrayIterator (Option U))
  active : Option (ArrayIterator (Option U))

/-- `next` of the sentinel-semantics array iterator: returns the raw element
(which may itself be `none`, i.e. the value `undefined`). -/
def sentinelSubNext {U : Type} (st : ArrayIterator (Option U)) :
    Option U × ArrayIterator (Option U) :=
  if h : st.index < st.data.length then
    (st.data.get ⟨st.index, h⟩, ⟨st.data, st.index + 1⟩)
  else
    (none, st)

/-- Gas-indexed sentinel-semantics chain `next`, transliterating
`chain.ts` lines 85-101 with the conflated `value !== void 0` test. -/
def sentinelNextGas {U : Type} : Nat → SentinelChain U → Option U × SentinelChain U
  | 0, c => (none, c)
  | gas + 1, c =>
    match c.active with
    | some st =>
      match sentinelSubNext st with
      | (some v, st') => (some v, { c with active := some st' })
      | (none, _) => sentinelNextGas gas { c with active := none }
    | none =>
      match c.rest with
      | [] => (none, c)
      | st :: rest' =>
        match sentinelSubNext st with
        | (some v, st') => (some v, ⟨rest', some st'⟩)
        | (none, _) => sentinelNextGas gas ⟨rest', none⟩

/-- Sentinel-semantics chain `next`, run with sufficient gas. -/
def sentinelNext {U : Type} (c : SentinelChain U) : Option U × SentinelChain U :=
  sentinelNextGas (2 * c.rest.length + 2) c

/-- Drain a sentinel-semantics chain. -/
def sentinelDrain {U : Type} : Nat → SentinelChain U → List U
  | 0, _ => []
  | n + 1, c =>
    match sentinelNext c with
    | (none, _) => []
    | (some v, c') => v :: sentinelDrain n c'

/-- Build the sentinel-semantics chain over the given sources. -/
def sentinelChain {U : Type} (ls : List (List (Option U))) : SentinelChain U :=
  ⟨ls.map (fun l => ⟨l, 0⟩), none⟩

/-- A bounding rectangle as returned by `getBoundingClientRect`, with
coordinates modelled as integers (the claims' instances are integral, and
the functions under test only compare, add and subtract coordinates). -/
structure Rect where
  left : ℤ
  top : ℤ
  right : ℤ
  bottom : ℤ
deriving DecidableEq

/-- Transliteration of `hitTest` from `query.ts` (lines 37-46), with the
element's bounding rectangle passed as data. -/
def hitTest (rect : Rect) (clientX clientY : ℤ) : Bool :=
  decide (clientX ≥ rect.left) && decide (clientX < rect.right) &&
    decide (clientY ≥ rect.top) && decide (clientY < rect.bottom)

/-- The mutable scroll state of the scroll area element; `scrollIfNeeded`
in `query.ts` assigns only `scrollTop`. -/
structure AreaState where
  scrollTop : ℤ
  scrollLeft : ℤ
deriving DecidableEq

/-- Transliteration of `scrollIfNeeded` from `query.ts` (lines 88-97), with
the two bounding rectangles (of the scroll area and of the element, in
client coordinates at call time) passed as data. -/
def scrollIfNeeded (a : AreaState) (ar er : Rect) (threshold : ℤ) : AreaState :=
  if er.top < ar.top - threshold then
    { a with scrollTop := a.scrollTop - (ar.top - er.top + threshold) }
  else if er.bottom > ar.bottom + threshold then
    { a with scrollTop := a.scrollTop + (er.bottom - ar.bottom + threshold) }
  else
    a

/-- The client-coordinate rectangle of a descendant of the scroll area after
the area's `scrollTop` has increased by `d` (standard DOM scrolling moves
the content up by `d` relative to the viewport). -/
def shiftRect (r : Rect) (d : ℤ) : Rect :=
  ⟨r.left, r.top - d, r.right, r.bottom - d⟩

/-- The element's rectangle is vertically within the area's rectangle
expanded by `t`: exactly the tolerance under which `scrollIfNeeded` leaves
the scroll offset unchanged. -/
def withinTol (ar er : Rect) (t : ℤ) : Prop :=
  ar.top - t ≤ er.top ∧ er.bottom ≤ ar.bottom + t

instance (ar er : Rect) (t : ℤ) : Decidable (withinTol ar er t) := by
  unfold withinTol; infer_instance

instance {T : Type} (c : ChainIterator) (h : Heap T) : Decidable (WF c h) := by
  unfold WF; infer_instance

instance {T : Type} [DecidableEq T] (d1 d2 : ChainIterator) (g : Heap T) :
    Decidable (Indep d1 d2 g) := by
  unfold Indep; infer_instance

lemma hGet_set_self {T : Type} (h : Heap T) (i : Nat) (st : ArrayIterator T)
    (hi : i < h.length) : hGet (hSet h i st) i = st := by
  simp [hGet, hSet, List.getElem?_set, hi]

lemma hGet_set_ne {T : Type} (h : Heap T) (i j : Nat) (st : ArrayIterator T)
    (hne : j ≠ i) : hGet (hSet h i st) j = hGet h j := by
  simp [hGet, hSet, List.getElem?_set, Ne.symm hne]

lemma hGet_append_lt {T : Type} (h : Heap T) (st : ArrayIterator T) (j : Nat)
    (hj : j < h.length) : hGet (h ++ [st]) j = hGet h j := by
  simp [hGet, List.getElem?_append_left hj]

lemma hGet_append_self {T : Type} (h : Heap T) (st : ArrayIterator T) :
    hGet (h ++ [st]) h.length = st := by
  unfold hGet
  rw [List.getElem?_concat_length]
  rfl

lemma hSet_length {T : Type} (h : Heap T) (i : Nat) (st : ArrayIterator T) :
    (hSet h i st).length = h.length := by
  simp [hSet]

lemma mem_activeIds {c : ChainIterator} {a : Nat} :
    a ∈ activeIds c ↔ c.active = some a := by
  cases hA : c.active <;> simp [activeIds, hA, eq_comm]

lemma futures_cons {c : ChainIterator} (hs : c.srcIdx < c.srcIds.length) :
    futures c = c.srcIds[c.srcIdx] :: c.srcIds.drop (c.srcIdx + 1) := by
  unfold futures
  exact List.drop_eq_getElem_cons hs

lemma remainingL_congr {T : Type} (c : ChainIterator) (h h' : Heap T)
    (hh : ∀ i ∈ readIds c, hGet h' i = hGet h i) :
    remainingL c h' = remainingL c h := by
  unfold remainingL
  congr 1
  exact List.map_congr_left (fun i hi => by rw [hh i hi])

lemma chainNextGas_congr {T : Type} :
    ∀ (n m : Nat) (c : ChainIterator) (h : Heap T), chainMeasure c < n →
      chainMeasure c < m → chainNextGas n c h = chainNextGas m c h := by
  intro n
  induction n with
  | zero => intro m c h hn; omega
  | succ n ih =>
    intro m c h hn hm
    obtain ⟨m, rfl⟩ : ∃ m', m = m' + 1 := ⟨m - 1, by omega⟩
    cases hA : c.active with
    | some aid =>
      have hm1 : chainMeasure { c with active := none } < n := by
        simp only [chainMeasure, hA] at hn ⊢
        simp at hn ⊢
        omega
      have hm2 : chainMeasure { c with active := none } < m := by
        simp only [chainMeasure, hA] at hm ⊢
        simp at hm ⊢
        omega
      cases hv : ArrayIterator.next (hGet h aid) with
      | mk o st =>
        cases o <;> simp [chainNextGas, hA, hv, ih _ _ _ hm1 hm2]
    | none =>
      cases hS : c.srcIds[c.srcIdx]? with
      | none => simp [chainNextGas, hA, hS]
      | some id =>
        have hk : c.srcIdx < c.srcIds.length := by
          obtain ⟨hk, -⟩ := List.getElem?_eq_some_iff.mp hS
          exact hk
        cases hc : c.cloned
        · simp only [chainNextGas, hA, hS, hc, Bool.false_eq_true, if_false]
          apply ih
          · simp only [chainMeasure, hA] at hn
            simp only [chainMeasure]
            simp at hn ⊢
            omega
          · simp only [chainMeasure, hA] at hm
            simp only [chainMeasure]
            simp at hm ⊢
            omega
        · simp only [chainNextGas, hA, hS, hc, if_true]
          apply ih
          · simp only [chainMeasure, hA] at hn
            simp only [chainMeasure]
            simp at hn ⊢
            omega
          · simp only [chainMeasure, hA] at hm
            simp only [chainMeasure]
            simp at hm ⊢
            omega

lemma next_active_val {T : Type} {c : ChainIterator} {h : Heap T} {aid : Nat}
    {v : T} {st : ArrayIterator T} (hA : c.active = some aid)
    (hv : ArrayIterator.next (hGet h aid) = (some v, st)) :
    ChainIterator.next c h = (some v, c, hSet h aid st) := by
  simp [ChainIterator.next, chainNextGas, hA, hv]

lemma next_active_exh {T : Type} {c : ChainIterator} {h : Heap T} {aid : Nat}
    (hA : c.active = some aid)
    (hv : (ArrayIterator.next (hGet h aid)).1 = none) :
    ChainIterator.next c h = ChainIterator.next { c with active := none } h := by
  cases hv' : ArrayIterator.next (hGet h aid) with
  | mk o st =>
    rw [hv'] at hv
    simp only at hv
    subst hv
    have h1 : chainMeasure { c with active := none } < chainMeasure c := by
      simp [chainMeasure, hA]
    simp only [ChainIterator.next, chainNextGas, hA, hv']
    exact chainNextGas_congr _ _ _ _ h1 (Nat.lt_succ_self _)

lemma next_outer_exh {T : Type} {c : ChainIterator} {h : Heap T}
    (hA : c.active = none) (hS : c.srcIds[c.srcIdx]? = none) :
    ChainIterator.next c h = (none, c, h) := by
  simp [ChainIterator.next, chainNextGas, hA, hS]

lemma next_pull_cloned {T : Type} {c : ChainIterator} {h : Heap T} {id : Nat}
    (hA : c.active = none) (hS : c.srcIds[c.srcIdx]? = some id)
    (hc : c.cloned = true) :
    ChainIterator.next c h =
      ChainIterator.next { c with srcIdx := c.srcIdx + 1, active := some h.length }
        (h ++ [hGet h id]) := by
  have hk : c.srcIdx < c.srcIds.length := by
    obtain ⟨hk, -⟩ := List.getElem?_eq_some_iff.mp hS
    exact hk
  have h1 : chainMeasure { c with srcIdx := c.srcIdx + 1, active := some h.length } <
      chainMeasure c := by
    simp [chainMeasure, hA]
    omega
  show chainNextGas _ _ _ = chainNextGas _ _ _
  rw [show chainNextGas (chainMeasure c + 1) c h =
      chainNextGas (chainMeasure c)
        { c with srcIdx := c.srcIdx + 1, active := some h.length } (h ++ [hGet h id]) from by
    simp only [chainNextGas, hA, hS, hc, if_true]]
  exact chainNextGas_congr _ _ _ _ h1 (Nat.lt_succ_self _)

lemma next_pull_plain {T : Type} {c : ChainIterator} {h : Heap T} {id : Nat}
    (hA : c.active = none) (hS : c.srcIds[c.srcIdx]? = some id)
    (hc : c.cloned = false) :
    ChainIterator.next c h =
      ChainIterator.next { c with srcIdx := c.srcIdx + 1, active := some id } h := by
  have hk : c.srcIdx < c.srcIds.length := by
    obtain ⟨hk, -⟩ := List.getElem?_eq_some_iff.mp hS
    exact hk
  have h1 : chainMeasure { c with srcIdx := c.srcIdx + 1, active := some id } <
      chainMeasure c := by
    simp [chainMeasure, hA]
    omega
  show chainNextGas _ _ _ = chainNextGas _ _ _
  rw [show chainNextGas (chainMeasure c + 1) c h =
      chainNextGas (chainMeasure c)
        { c with srcIdx := c.srcIdx + 1, active := some id } h from by
    simp only [chainNextGas, hA, hS, hc, Bool.false_eq_true, if_false]]
  exact chainNextGas_congr _ _ _ _ h1 (Nat.lt_succ_self _)

lemma subNext_some {T : Type} {st0 st1 : ArrayIterator T} {v : T}
    (hv : ArrayIterator.next st0 = (some v, st1)) :
    subRem st0 = v :: subRem st1 := by
  unfold ArrayIterator.next at hv
  split at hv
  case isTrue hlt =>
    rw [Prod.mk.injEq, Option.some.injEq] at hv
    obtain ⟨rfl, rfl⟩ := hv
    unfold subRem
    rw [List.drop_eq_getElem_cons hlt]
    simp
  case isFalse => simp at hv

lemma subNext_none {T : Type} {st0 : ArrayIterator T}
    (hv : (ArrayIterator.next st0).1 = none) : subRem st0 = [] := by
  unfold ArrayIterator.next at hv
  split at hv
  · simp at hv
  case isFalse hge =>
    unfold subRem
    exact List.drop_eq_nil_of_le (by omega)

lemma WF_of_le {T : Type} {c : ChainIterator} {h h' : Heap T}
    (hw : WF c h) (hl : h.length ≤ h'.length) : WF c h' := by
  obtain ⟨hb, hnd, ha⟩ := hw
  exact ⟨fun i hi => lt_of_lt_of_le (hb i hi) hl, hnd,
    fun a hmem => ⟨lt_of_lt_of_le (ha a hmem).1 hl, (ha a hmem).2⟩⟩

lemma getElem?_futures_head {c : ChainIterator} {j : Nat}
    (hS : c.srcIds[c.srcIdx]? = some j) :
    futures c = j :: c.srcIds.drop (c.srcIdx + 1) := by
  obtain ⟨hk, he⟩ := List.getElem?_eq_some_iff.mp hS
  rw [futures_cons hk, he]

lemma WF_clearActive {T : Type} {c : ChainIterator} {h : Heap T} (hw : WF c h) :
    WF { c with active := none } h := by
  obtain ⟨hb, hnd, -⟩ := hw
  refine ⟨?_, ?_, ?_⟩
  · simpa [futures] using hb
  · simpa [futures] using hnd
  · simp [activeIds]

lemma WF_pull_plain {T : Type} {c : ChainIterator} {h : Heap T} {j : Nat}
    (hw : WF c h) (hS : c.srcIds[c.srcIdx]? = some j) :
    WF { c with srcIdx := c.srcIdx + 1, active := some j } h := by
  obtain ⟨hb, hnd, -⟩ := hw
  have hfc := getElem?_futures_head hS
  rw [hfc] at hb hnd
  rw [List.nodup_cons] at hnd
  refine ⟨?_, ?_, ?_⟩
  · intro i hi
    simp only [futures] at hi
    exact hb i (List.mem_cons_of_mem _ hi)
  · simp only [futures]
    exact hnd.2
  · intro a hmem
    rw [mem_activeIds] at hmem
    simp only [Option.some.injEq] at hmem
    rw [← hmem]
    refine ⟨hb j (List.mem_cons_self _ _), ?_⟩
    simp only [futures]
    exact hnd.1

lemma WF_pull_cloned {T : Type} {c : ChainIterator} {h : Heap T} {j : Nat}
    (hw : WF c h) (hS : c.srcIds[c.srcIdx]? = some j) :
    WF { c with srcIdx := c.srcIdx + 1, active := some h.length }
      (h ++ [hGet h j]) := by
  obtain ⟨hb, hnd, -⟩ := hw
  have hfc := getElem?_futures_head hS
  rw [hfc] at hb hnd
  rw [List.nodup_cons] at hnd
  refine ⟨?_, ?_, ?_⟩
  · intro i hi
    simp only [futures] at hi
    have := hb i (List.mem_cons_of_mem _ hi)
    simp only [List.length_append, List.length_cons, List.length_nil]
    omega
  · simp only [futures]
    exact hnd.2
  · intro a hmem
    rw [mem_activeIds] at hmem
    simp only [Option.some.injEq] at hmem
    rw [← hmem]
    constructor
    · simp
    · intro hmem2
      simp only [futures] at hmem2
      have := hb h.length (List.mem_cons_of_mem _ hmem2)
      omega

lemma remainingL_active {T : Type} {c : ChainIterator} {h : Heap T} {aid : Nat}
    (hA : c.active = some aid) :
    remainingL c h = subRem (hGet h aid) ++ remainingL { c with active := none } h := by
  unfold remainingL readIds activeIds
  rw [hA]
  simp [futures]

lemma remainingL_noActive {T : Type} {c : ChainIterator} {h : Heap T}
    (hA : c.active = none) :
    remainingL c h = ((futures c).map (fun i => subRem (hGet h i))).flatten := by
  unfold remainingL readIds activeIds
  rw [hA]
  simp

lemma futures_nil_of_none {c : ChainIterator} (hS : c.srcIds[c.srcIdx]? = none) :
    futures c = [] := by
  unfold futures
  exact List.drop_eq_nil_of_le (List.getElem?_eq_none_iff.mp hS)

lemma remaining_clearActive {T : Type} {c : ChainIterator} {h : Heap T} {aid : Nat}
    (hA : c.active = some aid) (hv : (ArrayIterator.next (hGet h aid)).1 = none) :
    remainingL c h = remainingL { c with active := none } h := by
  rw [remainingL_active hA, subNext_none hv]
  simp

lemma remaining_pull_plain {T : Type} {c : ChainIterator} {h : Heap T} {j : Nat}
    (hA : c.active = none) (hS : c.srcIds[c.srcIdx]? = some j) :
    remainingL c h = remainingL { c with srcIdx := c.srcIdx + 1, active := some j } h := by
  rw [remainingL_noActive hA, getElem?_futures_head hS,
    remainingL_active
      (show ({ c with srcIdx := c.srcIdx + 1, active := some j } :
        ChainIterator).active = some j from rfl),
    remainingL_noActive
      (show ({ c with srcIdx := c.srcIdx + 1, active := (none : Option Nat) } :
        ChainIterator).active = none from rfl)]
  simp [futures]

lemma remaining_pull_cloned {T : Type} {c : ChainIterator} {h : Heap T} {j : Nat}
    (hw : WF c h) (hA : c.active = none) (hS : c.srcIds[c.srcIdx]? = some j) :
    remainingL c h =
      remainingL { c with srcIdx := c.srcIdx + 1, active := some h.length }
        (h ++ [hGet h j]) := by
  have hb := hw.1
  rw [getElem?_futures_head hS] at hb
  rw [remainingL_noActive hA, getElem?_futures_head hS,
    remainingL_active
      (show ({ c with srcIdx := c.srcIdx + 1, active := some h.length } :
        ChainIterator).active = some h.length from rfl),
    remainingL_noActive
      (show ({ c with srcIdx := c.srcIdx + 1, active := (none : Option Nat) } :
        ChainIterator).active = none from rfl)]
  rw [hGet_append_self]
  simp only [List.map_cons, List.flatten_cons]
  congr 1
  simp only [futures]
  congr 1
  apply List.map_congr_left
  intro i hi
  rw [hGet_append_lt _ _ _ (hb i (List.mem_cons_of_mem _ hi))]

lemma remaining_set_val {T : Type} {c : ChainIterator} {h : Heap T} {aid : Nat}
    {v : T} {st1 : ArrayIterator T} (hw : WF c h) (hA : c.active = some aid)
    (hv : ArrayIterator.next (hGet h aid) = (some v, st1)) :
    remainingL c h = v :: remainingL c (hSet h aid st1) := by
  obtain ⟨haid, hnin⟩ := hw.2.2 aid (mem_activeIds.mpr hA)
  rw [remainingL_active hA, remainingL_active hA (h := hSet h aid st1)]
  rw [subNext_some hv, hGet_set_self _ _ _ haid]
  rw [show remainingL { c with active := none } (hSet h aid st1) =
      remainingL { c with active := none } h from
    remainingL_congr _ _ _ (fun i hi => by
      refine hGet_set_ne _ _ _ _ (fun hia => hnin ?_)
      subst hia
      simpa [readIds, activeIds, futures] using hi)]
  simp

lemma measure_clearActive {c : ChainIterator} {aid : Nat} (hA : c.active = some aid) :
    chainMeasure { c with active := none } < chainMeasure c := by
  simp [chainMeasure, hA]

lemma measure_pull {c : ChainIterator} {j : Nat} (hA : c.active = none)
    (hS : c.srcIds[c.srcIdx]? = some j) (a : Nat) :
    chainMeasure { c with srcIdx := c.srcIdx + 1, active := some a } < chainMeasure c := by
  have hk := (List.getElem?_eq_some_iff.mp hS).1
  simp [chainMeasure, hA]
  omega

lemma next_spec_aux {T : Type} :
    ∀ (n : Nat) (c : ChainIterator) (h : Heap T), chainMeasure c ≤ n → WF c h →
      WF (ChainIterator.next c h).2.1 (ChainIterator.next c h).2.2 ∧
      h.length ≤ (ChainIterator.next c h).2.2.length ∧
      remainingL c h = (match (ChainIterator.next c h).1 with
        | some v => v :: remainingL (ChainIterator.next c h).2.1 (ChainIterator.next c h).2.2
        | none => ([] : List T)) := by
  intro n
  induction n with
  | zero =>
    intro c h hle hw
    have hA : c.active = none := by
      rcases hA : c.active with - | aid
      · rfl
      · simp [chainMeasure, hA] at hle
    have hS : c.srcIds[c.srcIdx]? = none := by
      rw [List.getElem?_eq_none_iff]
      simp [chainMeasure, hA] at hle
      omega
    rw [next_outer_exh hA hS]
    refine ⟨hw, le_refl _, ?_⟩
    show remainingL c h = ([] : List T)
    rw [remainingL_noActive hA, futures_nil_of_none hS]
    simp
  | succ n ih =>
    intro c h hle hw
    rcases hA : c.active with - | aid
    · rcases hS : c.srcIds[c.srcIdx]? with - | j
      · rw [next_outer_exh hA hS]
        refine ⟨hw, le_refl _, ?_⟩
        show remainingL c h = ([] : List T)
        rw [remainingL_noActive hA, futures_nil_of_none hS]
        simp
      · rcases hc : c.cloned with - | -
        · rw [next_pull_plain hA hS hc]
          have h1 : chainMeasure { c with srcIdx := c.srcIdx + 1, active := some j } ≤ n := by
            have := measure_pull hA hS j
            omega
          obtain ⟨w1, w2, w3⟩ := ih _ _ h1 (WF_pull_plain hw hS)
          exact ⟨w1, w2, by rw [remaining_pull_plain hA hS]; exact w3⟩
        · rw [next_pull_cloned hA hS hc]
          have h1 : chainMeasure
              { c with srcIdx := c.srcIdx + 1, active := some h.length } ≤ n := by
            have := measure_pull hA hS h.length
            omega
          obtain ⟨w1, w2, w3⟩ := ih _ _ h1 (WF_pull_cloned hw hS)
          refine ⟨w1, ?_, by rw [remaining_pull_cloned hw hA hS]; exact w3⟩
          calc h.length ≤ (h ++ [hGet h j]).length := by simp
            _ ≤ _ := w2
    · rcases hv : ArrayIterator.next (hGet h aid) with ⟨- | v, st⟩
      · rw [next_active_exh hA (by rw [hv])]
        have h1 : chainMeasure { c with active := none } ≤ n := by
          have := measure_clearActive hA
          omega
        obtain ⟨w1, w2, w3⟩ := ih _ _ h1 (WF_clearActive hw)
        exact ⟨w1, w2, by rw [remaining_clearActive hA (by rw [hv])]; exact w3⟩
      · rw [next_active_val hA hv]
        refine ⟨WF_of_le hw (by rw [hSet_length]), by rw [hSet_length], ?_⟩
        show remainingL c h = v :: remainingL c (hSet h aid st)
        exact remaining_set_val hw hA hv

lemma next_spec {T : Type} {c : ChainIterator} {h : Heap T} (hw : WF c h) :
    WF (ChainIterator.next c h).2.1 (ChainIterator.next c h).2.2 ∧
    h.length ≤ (ChainIterator.next c h).2.2.length ∧
    remainingL c h = (match (ChainIterator.next c h).1 with
      | some v => v :: remainingL (ChainIterator.next c h).2.1 (ChainIterator.next c h).2.2
      | none => ([] : List T)) :=
  next_spec_aux (chainMeasure c) c h (le_refl _) hw

lemma next_fst_eq_head {T : Type} {c : ChainIterator} {h : Heap T} (hw : WF c h) :
    (ChainIterator.next c h).1 = (remainingL c h).head? := by
  obtain ⟨-, -, w3⟩ := next_spec hw
  rcases ho : (ChainIterator.next c h).1 with - | v <;> rw [ho] at w3 <;> rw [w3] <;> rfl

lemma drain_eq {T : Type} :
    ∀ (n : Nat) (c : ChainIterator) (h : Heap T), WF c h →
      (remainingL c h).length ≤ n → drainFuel n c h = remainingL c h := by
  intro n
  induction n with
  | zero =>
    intro c h hw hl
    have hnil : remainingL c h = [] := List.eq_nil_of_length_eq_zero (by omega)
    rw [hnil]
    rfl
  | succ n ih =>
    intro c h hw hl
    obtain ⟨w1, -, w3⟩ := next_spec hw
    rcases ho : ChainIterator.next c h with ⟨o, c', h'⟩
    rw [ho] at w1 w3
    rcases o with - | v
    · simp only [drainFuel, ho]
      exact w3.symm
    · simp only [drainFuel, ho]
      rw [w3] at hl ⊢
      simp only [List.length_cons] at hl
      rw [ih c' h' w1 (by omega)]

lemma WF_chain {T : Type} (ls : List (List T)) : WF (chain ls).1 (chain ls).2 := by
  refine ⟨?_, ?_, ?_⟩
  · intro i hi
    simp [chain, futures] at hi ⊢
    omega
  · simp [chain, futures, List.nodup_range]
  · simp [chain, activeIds]

lemma map_subRem_range {T : Type} :
    ∀ ls : List (List T),
      (List.range ls.length).map
        (fun i => subRem (hGet (ls.map (fun l => ⟨l, 0⟩)) i)) = ls := by
  intro ls
  induction ls with
  | nil => simp
  | cons a t iht =>
    rw [List.length_cons, List.range_succ_eq_map]
    simp only [List.map_cons, List.map_map]
    congr 1
    · simp [hGet, subRem]
    · refine .trans (List.map_congr_left ?_) iht
      intro i hi
      simp [Function.comp, hGet]

lemma remaining_chain {T : Type} (ls : List (List T)) :
    remainingL (chain ls).1 (chain ls).2 = ls.flatten := by
  rw [remainingL_noActive (by simp [chain])]
  have hf : futures (chain ls).1 = List.range ls.length := by
    simp [chain, futures]
  rw [hf]
  rw [show (chain ls).2 = ls.map (fun l => ⟨l, 0⟩) from rfl]
  rw [map_subRem_range]

lemma next_none_fix_aux {T : Type} :
    ∀ (n : Nat) (c : ChainIterator) (h : Heap T), chainMeasure c ≤ n →
      ∀ c' h', ChainIterator.next c h = (none, c', h') →
        ChainIterator.next c' h' = (none, c', h') := by
  intro n
  induction n with
  | zero =>
    intro c h hle c' h' he
    have hA : c.active = none := by
      rcases hA : c.active with - | aid
      · rfl
      · simp [chainMeasure, hA] at hle
    have hS : c.srcIds[c.srcIdx]? = none := by
      rw [List.getElem?_eq_none_iff]
      simp [chainMeasure, hA] at hle
      omega
    rw [next_outer_exh hA hS] at he
    obtain ⟨rfl, rfl⟩ : c = c' ∧ h = h' := by
      rw [Prod.mk.injEq, Prod.mk.injEq] at he
      exact ⟨he.2.1, he.2.2⟩
    rw [next_outer_exh hA hS]
  | succ n ih =>
    intro c h hle c' h' he
    rcases hA : c.active with - | aid
    · rcases hS : c.srcIds[c.srcIdx]? with - | j
      · rw [next_outer_exh hA hS] at he
        obtain ⟨rfl, rfl⟩ : c = c' ∧ h = h' := by
          rw [Prod.mk.injEq, Prod.mk.injEq] at he
          exact ⟨he.2.1, he.2.2⟩
        rw [next_outer_exh hA hS]
      · rcases hc : c.cloned with - | -
        · rw [next_pull_plain hA hS hc] at he
          exact ih _ _ (by have := measure_pull hA hS j; omega) _ _ he
        · rw [next_pull_cloned hA hS hc] at he
          exact ih _ _ (by have := measure_pull hA hS h.length; omega) _ _ he
    · rcases hv : ArrayIterator.next (hGet h aid) with ⟨- | v, st⟩
      · rw [next_active_exh hA (by rw [hv])] at he
        exact ih _ _ (by have := measure_clearActive hA; omega) _ _ he
      · rw [next_active_val hA hv] at he
        rw [Prod.mk.injEq] at he
        exact absurd he.1 (by simp)

lemma next_frame_aux {T : Type} :
    ∀ (n : Nat) (c : ChainIterator) (h : Heap T), chainMeasure c ≤ n →
      c.cloned = true → ∀ j, j < h.length → c.active ≠ some j →
        hGet (ChainIterator.next c h).2.2 j = hGet h j := by
  intro n
  induction n with
  | zero =>
    intro c h hle hc j hj hne
    have hA : c.active = none := by
      rcases hA : c.active with - | aid
      · rfl
      · simp [chainMeasure, hA] at hle
    have hS : c.srcIds[c.srcIdx]? = none := by
      rw [List.getElem?_eq_none_iff]
      simp [chainMeasure, hA] at hle
      omega
    rw [next_outer_exh hA hS]
  | succ n ih =>
    intro c h hle hc j hj hne
    rcases hA : c.active with - | aid
    · rcases hS : c.srcIds[c.srcIdx]? with - | i
      · rw [next_outer_exh hA hS]
      · rw [next_pull_cloned hA hS hc]
        rw [ih { c with srcIdx := c.srcIdx + 1, active := some h.length }
          (h ++ [hGet h i])
          (by have := measure_pull hA hS h.length; omega) hc j
          (by simp; omega) (by simp; omega)]
        exact hGet_append_lt _ _ _ hj
    · rcases hv : ArrayIterator.next (hGet h aid) with ⟨- | v, st⟩
      · rw [next_active_exh hA (by rw [hv])]
        exact ih { c with active := none } h
          (by have := measure_clearActive hA; omega) hc j hj (by simp)
      · rw [next_active_val hA hv]
        refine hGet_set_ne _ _ _ _ (fun hja => hne ?_)
        rw [hA, hja]

lemma next_active_src_aux {T : Type} :
    ∀ (n : Nat) (c : ChainIterator) (h : Heap T), chainMeasure c ≤ n →
      c.cloned = true → ∀ a, (ChainIterator.next c h).2.1.active = some a →
        c.active = some a ∨ h.length ≤ a := by
  intro n
  induction n with
  | zero =>
    intro c h hle hc a ha
    have hA : c.active = none := by
      rcases hA : c.active with - | aid
      · rfl
      · simp [chainMeasure, hA] at hle
    have hS : c.srcIds[c.srcIdx]? = none := by
      rw [List.getElem?_eq_none_iff]
      simp [chainMeasure, hA] at hle
      omega
    rw [next_outer_exh hA hS] at ha
    have ha' : c.active = some a := ha
    rw [hA] at ha'
    exact absurd ha' (by simp)
  | succ n ih =>
    intro c h hle hc a ha
    rcases hA : c.active with - | aid
    · rcases hS : c.srcIds[c.srcIdx]? with - | i
      · rw [next_outer_exh hA hS] at ha
        have ha' : c.active = some a := ha
        rw [hA] at ha'
        exact absurd ha' (by simp)
      · rw [next_pull_cloned hA hS hc] at ha
        rcases ih { c with srcIdx := c.srcIdx + 1, active := some h.length }
            (h ++ [hGet h i])
            (by have := measure_pull hA hS h.length; omega) hc a ha with h1 | h1
        · simp only [Option.some.injEq] at h1
          omega
        · simp only [List.length_append, List.length_cons, List.length_nil] at h1
          omega
    · rcases hv : ArrayIterator.next (hGet h aid) with ⟨- | v, st⟩
      · rw [next_active_exh hA (by rw [hv])] at ha
        rcases ih { c with active := none } h
            (by have := measure_clearActive hA; omega) hc a ha with h1 | h1
        · simp at h1
        · exact Or.inr h1
      · rw [next_active_val hA hv] at ha
        have ha' : c.active = some a := ha
        rw [hA] at ha'
        exact Or.inl ha'

lemma next_shape_aux {T : Type} :
    ∀ (n : Nat) (c : ChainIterator) (h : Heap T), chainMeasure c ≤ n →
      (ChainIterator.next c h).2.1.srcIds = c.srcIds ∧
      c.srcIdx ≤ (ChainIterator.next c h).2.1.srcIdx ∧
      (ChainIterator.next c h).2.1.cloned = c.cloned := by
  intro n
  induction n with
  | zero =>
    intro c h hle
    have hA : c.active = none := by
      rcases hA : c.active with - | aid
      · rfl
      · simp [chainMeasure, hA] at hle
    have hS : c.srcIds[c.srcIdx]? = none := by
      rw [List.getElem?_eq_none_iff]
      simp [chainMeasure, hA] at hle
      omega
    rw [next_outer_exh hA hS]
    exact ⟨rfl, le_refl _, rfl⟩
  | succ n ih =>
    intro c h hle
    rcases hA : c.active with - | aid
    · rcases hS : c.srcIds[c.srcIdx]? with - | i
      · rw [next_outer_exh hA hS]
        exact ⟨rfl, le_refl _, rfl⟩
      · rcases hc : c.cloned with - | -
        · rw [next_pull_plain hA hS hc]
          obtain ⟨s1, s2, s3⟩ := ih { c with srcIdx := c.srcIdx + 1, active := some i } h
            (by have := measure_pull hA hS i; omega)
          refine ⟨by rw [s1], ?_, by rw [s3]; exact hc⟩
          simp only at s2
          omega
        · rw [next_pull_cloned hA hS hc]
          obtain ⟨s1, s2, s3⟩ := ih
            { c with srcIdx := c.srcIdx + 1, active := some h.length }
            (h ++ [hGet h i])
            (by have := measure_pull hA hS h.length; omega)
          refine ⟨by rw [s1], ?_, by rw [s3]; exact hc⟩
          simp only at s2
          omega
    · rcases hv : ArrayIterator.next (hGet h aid) with ⟨- | v, st⟩
      · rw [next_active_exh hA (by rw [hv])]
        exact ih { c with active := none } h
          (by have := measure_clearActive hA; omega)
      · rw [next_active_val hA hv]
        exact ⟨rfl, le_refl _, rfl⟩

lemma drop_subset_drop_of_le {α : Type} (l : List α) {m n : Nat} (hmn : n ≤ m) :
    l.drop m ⊆ l.drop n := by
  intro x hx
  have hd : List.drop (m - n) (List.drop n l) = List.drop m l := by
    rw [List.drop_drop]
    congr 1
    omega
  rw [← hd] at hx
  exact List.drop_subset _ _ hx

lemma next_futures_subset {T : Type} (c : ChainIterator) (h : Heap T) :
    futures (ChainIterator.next c h).2.1 ⊆ futures c := by
  obtain ⟨s1, s2, -⟩ := next_shape_aux (chainMeasure c) c h (le_refl _)
  unfold futures
  rw [s1]
  exact drop_subset_drop_of_le _ s2

lemma WF_setCloned {T : Type} {c : ChainIterator} {h : Heap T} {b : Bool}
    (hw : WF c h) : WF { c with cloned := b } h := hw

lemma remainingL_setCloned {T : Type} {c : ChainIterator} {h : Heap T} {b : Bool} :
    remainingL { c with cloned := b } h = remainingL c h := rfl

lemma Indep_symm {T : Type} {d1 d2 : ChainIterator} {g : Heap T}
    (hind : Indep d1 d2 g) : Indep d2 d1 g := by
  obtain ⟨hc1, hc2, hw1, hw2, hx12, hx21⟩ := hind
  exact ⟨hc2, hc1, hw2, hw1, hx21, hx12⟩

lemma indep_step {T : Type} {d1 d2 : ChainIterator} {g : Heap T}
    (hind : Indep d1 d2 g) :
    remainingL d2 (ChainIterator.next d1 g).2.2 = remainingL d2 g ∧
    Indep (ChainIterator.next d1 g).2.1 d2 (ChainIterator.next d1 g).2.2 := by
  obtain ⟨hc1, hc2, hw1, hw2, hx12, hx21⟩ := hind
  have hlen : g.length ≤ (ChainIterator.next d1 g).2.2.length := (next_spec hw1).2.1
  have hframe := next_frame_aux (chainMeasure d1) d1 g (le_refl _) hc1
  have hreads : ∀ i ∈ readIds d2, hGet (ChainIterator.next d1 g).2.2 i = hGet g i := by
    intro i hi
    rcases List.mem_append.mp hi with hi | hi
    · exact hframe i (hw2.2.2 i hi).1
        (fun ha => ((hx21 i hi).1 (mem_activeIds.mpr ha)))
    · exact hframe i (hw2.1 i hi)
        (fun ha => ((hx12 i (mem_activeIds.mpr ha)).2 hi))
  have hshape := next_shape_aux (chainMeasure d1) d1 g (le_refl _)
  refine ⟨remainingL_congr _ _ _ hreads, ?_, hc2, (next_spec hw1).1, WF_of_le hw2 hlen,
    ?_, ?_⟩
  · rw [hshape.2.2]
    exact hc1
  · intro a hmem
    rcases next_active_src_aux (chainMeasure d1) d1 g (le_refl _) hc1 a
        (mem_activeIds.mp hmem) with h1 | h1
    · exact hx12 a (mem_activeIds.mpr h1)
    · constructor
      · intro hmem2
        have := (hw2.2.2 a hmem2).1
        omega
      · intro hmem2
        have := hw2.1 a hmem2
        omega
  · intro a hmem
    constructor
    · intro hmem2
      rcases next_active_src_aux (chainMeasure d1) d1 g (le_refl _) hc1 a
          (mem_activeIds.mp hmem2) with h1 | h1
      · exact (hx21 a hmem).1 (mem_activeIds.mpr h1)
      · have := (hw2.2.2 a hmem).1
        omega
    · intro hmem2
      exact (hx21 a hmem).2 (next_futures_subset d1 g hmem2)

lemma clone_spec {T : Type} {c : ChainIterator} {h : Heap T} (hw : WF c h) :
    remainingL (ChainIterator.clone c h).1 (ChainIterator.clone c h).2.2 =
      remainingL c h ∧
    remainingL (ChainIterator.clone c h).2.1 (ChainIterator.clone c h).2.2 =
      remainingL c h ∧
    Indep (ChainIterator.clone c h).1 (ChainIterator.clone c h).2.1
      (ChainIterator.clone c h).2.2 := by
  rcases hA : c.active with - | aid
  · rw [show ChainIterator.clone c h =
        ({ c with cloned := true }, { c with active := none, cloned := true }, h) from by
      unfold ChainIterator.clone; rw [hA]]
    refine ⟨remainingL_setCloned, ?_, ?_⟩
    · rw [show ({ c with active := none, cloned := true } : ChainIterator) =
          { c with cloned := true } from by rw [← hA], remainingL_setCloned]
    · refine ⟨rfl, rfl, WF_setCloned hw, ?_, ?_, ?_⟩
      · rw [show ({ c with active := none, cloned := true } : ChainIterator) =
            { c with cloned := true } from by rw [← hA]]
        exact WF_setCloned hw
      · intro a hmem
        rw [mem_activeIds] at hmem
        have hmem' : c.active = some a := hmem
        rw [hA] at hmem'
        exact absurd hmem' (by simp)
      · intro a hmem
        rw [mem_activeIds] at hmem
        have hmem' : (none : Option Nat) = some a := hmem
        exact absurd hmem' (by simp)
  · have haid := (hw.2.2 aid (mem_activeIds.mpr hA)).1
    have hanin := (hw.2.2 aid (mem_activeIds.mpr hA)).2
    rw [show ChainIterator.clone c h =
        ({ c with cloned := true },
         { c with active := some h.length, cloned := true },
         h ++ [hGet h aid]) from by
      unfold ChainIterator.clone; rw [hA]]
    have hfut : ∀ i ∈ futures c, hGet (h ++ [hGet h aid]) i = hGet h i :=
      fun i hi => hGet_append_lt _ _ _ (hw.1 i hi)
    refine ⟨?_, ?_, ?_⟩
    · rw [show remainingL { c with cloned := true } (h ++ [hGet h aid]) =
          remainingL c (h ++ [hGet h aid]) from remainingL_setCloned]
      refine remainingL_congr _ _ _ ?_
      intro i hi
      rcases List.mem_append.mp hi with hi | hi
      · rw [mem_activeIds, hA, Option.some.injEq] at hi
        rw [← hi]
        exact hGet_append_lt _ _ _ haid
      · exact hfut i hi
    · rw [remainingL_active hA,
        remainingL_active (show ({ c with active := some h.length, cloned := true } :
          ChainIterator).active = some h.length from rfl)]
      rw [hGet_append_self]
      congr 1
      rw [show ({ c with active := some h.length, cloned := true} : ChainIterator) =
          {({ c with cloned := true} : ChainIterator) with active := some h.length} from rfl]
      rw [show ({({ c with cloned := true} : ChainIterator) with active := (none : Option Nat)}) =
          ({ c with active := none, cloned := true} : ChainIterator) from rfl]
      rw [show remainingL { c with active := none, cloned := true } (h ++ [hGet h aid]) =
          remainingL { c with active := none } (h ++ [hGet h aid]) from rfl]
      rw [show remainingL { c with active := (none : Option Nat) } h =
          remainingL { c with active := none } h from rfl]
      refine remainingL_congr _ _ _ ?_
      intro i hi
      simp only [readIds, activeIds, futures, Option.toList] at hi
      simp only [List.nil_append] at hi
      exact hfut i hi
    · refine ⟨rfl, rfl, ?_, ?_, ?_, ?_⟩
      · exact WF_of_le (WF_setCloned hw) (by simp)
      · refine ⟨?_, ?_, ?_⟩
        · intro i hi
          have : i < h.length := hw.1 i hi
          simp
          omega
        · exact hw.2.1
        · intro a hmem
          rw [mem_activeIds] at hmem
          have hmem' : some h.length = some a := hmem
          rw [Option.some.injEq] at hmem'
          rw [← hmem']
          refine ⟨by simp, ?_⟩
          intro hmem2
          have := hw.1 h.length hmem2
          omega
      · intro a hmem
        rw [mem_activeIds] at hmem
        have hmem' : c.active = some a := hmem
        rw [hA, Option.some.injEq] at hmem'
        rw [← hmem']
        constructor
        · intro hmem2
          rw [mem_activeIds] at hmem2
          have hmem2' : some h.length = some aid := hmem2
          rw [Option.some.injEq] at hmem2'
          omega
        · exact hanin
      · intro a hmem
        rw [mem_activeIds] at hmem
        have hmem' : some h.length = some a := hmem
        rw [Option.some.injEq] at hmem'
        rw [← hmem']
        constructor
        · intro hmem2
          rw [mem_activeIds] at hmem2
          have hmem2' : c.active = some h.length := hmem2
          rw [hA, Option.some.injEq] at hmem2'
          omega
        · intro hmem2
          have := hw.1 h.length hmem2
          omega

lemma nextDepthGas_empties {T : Type} :
    ∀ (gas m k : Nat), m ≤ gas →
      nextDepthGas gas (⟨List.range (k + m), k, none, false⟩ : ChainIterator)
        (List.replicate (k + m) (⟨[], 0⟩ : ArrayIterator T)) = m + 1 := by
  intro gas
  induction gas with
  | zero =>
    intro m k hm
    obtain rfl : m = 0 := by omega
    rfl
  | succ gas ih =>
    intro m k hm
    cases m with
    | zero =>
      have hS : (List.range k)[k]? = (none : Option Nat) := by
        rw [List.getElem?_eq_none_iff]
        simp
      simp [nextDepthGas, hS]
    | succ m =>
      have hrw : k + (m + 1) = (k + 1) + m := by omega
      rw [hrw]
      have hS : (List.range ((k + 1) + m))[k]? = some k := by
        rw [List.getElem?_eq_some_iff]
        refine ⟨by simp; omega, by simp⟩
      have hG : hGet (List.replicate ((k + 1) + m) (⟨[], 0⟩ : ArrayIterator T)) k =
          ⟨[], 0⟩ := by
        unfold hGet
        rw [List.getElem?_replicate]
        rw [if_pos (by omega)]
        rfl
      simp only [nextDepthGas, hS, hG]
      rw [show (ArrayIterator.next (⟨[], 0⟩ : ArrayIterator T)).1.isSome = false from rfl]
      simp only [Bool.false_eq_true, if_false]
      rw [ih m (k + 1) (by omega)]
      omega

/-- Claim C1: for every ordered list of sources, draining `chain(sources)` via
repeated `next()` yields every element of source 1 in order, then every element
of source 2, and so on, then the exhausted signal; in particular
`chain([1,2,3],[4,5,6])` drained fully yields exactly `[1,2,3,4,5,6]`, and if
the input list is empty the first `next()` call returns exhausted immediately.
(Draining with any fuel of at least the total element count returns exactly the
concatenation, so the call after the last element signals exhaustion.) -/
theorem c1_concatenation_order {T : Type} (ls : List (List T)) (n : Nat)
    (hn : ls.flatten.length ≤ n) :
    drainFuel n (chain ls).1 (chain ls).2 = ls.flatten ∧
    drainFuel 7 (chain [[1, 2, 3], [4, 5, 6]]).1 (chain [[1, 2, 3], [4, 5, 6]]).2 =
      [1, 2, 3, 4, 5, 6] ∧
    (ChainIterator.next (chain ([] : List (List T))).1
      (chain ([] : List (List T))).2).1 = none := by
  refine ⟨?_, by decide, ?_⟩
  · rw [← remaining_chain ls]
    exact drain_eq n _ _ (WF_chain ls) (by rw [remaining_chain]; exact hn)
  · have h1 : (chain ([] : List (List T))).1.active = none := rfl
    have h2 : (chain ([] : List (List T))).1.srcIds[
        (chain ([] : List (List T))).1.srcIdx]? = none := rfl
    rw [next_outer_exh h1 h2]

/-- Claim C1, witness: the hypothesis and conclusion at
`chain([1,2,3],[4,5,6])` with fuel 7. -/
theorem c1_concatenation_order_witness :
    ([[1, 2, 3], [4, 5, 6]] : List (List Nat)).flatten.length ≤ 7 ∧
    (drainFuel 7 (chain ([[1, 2, 3], [4, 5, 6]] : List (List Nat))).1
        (chain ([[1, 2, 3], [4, 5, 6]] : List (List Nat))).2 =
      ([[1, 2, 3], [4, 5, 6]] : List (List Nat)).flatten ∧
    drainFuel 7 (chain [[1, 2, 3], [4, 5, 6]]).1 (chain [[1, 2, 3], [4, 5, 6]]).2 =
      [1, 2, 3, 4, 5, 6] ∧
    (ChainIterator.next (chain ([] : List (List Nat))).1
      (chain ([] : List (List Nat))).2).1 = none) :=
  ⟨by decide, c1_concatenation_order [[1, 2, 3], [4, 5, 6]] 7 (by decide)⟩

/-- Claim C2: for every well-formed `ChainIterator` mid-traversal, `clone()`
produces a chain whose remaining output equals the original's remaining output
(and the original's remaining output is unchanged); the two resulting chains
satisfy the `Indep` invariant, and for any two `Indep` chains, advancing one
via `next()` leaves the other's remaining output unchanged and preserves the
invariant (in both orders, via its symmetry) — so advancing either chain never
affects the other's remaining output, including for sub-iterators not yet
reached at the clone point.  Sub-iterators are the cursor-over-immutable-list
iterators, which support `clone()` per the protocol. -/
theorem c2_clone_independence {T : Type} (c : ChainIterator) (h : Heap T)
    (hw : WF c h) (d1 d2 : ChainIterator) (g : Heap T) (hind : Indep d1 d2 g) :
    remainingL (ChainIterator.clone c h).1 (ChainIterator.clone c h).2.2 =
      remainingL c h ∧
    remainingL (ChainIterator.clone c h).2.1 (ChainIterator.clone c h).2.2 =
      remainingL c h ∧
    Indep (ChainIterator.clone c h).1 (ChainIterator.clone c h).2.1
      (ChainIterator.clone c h).2.2 ∧
    remainingL d2 (ChainIterator.next d1 g).2.2 = remainingL d2 g ∧
    Indep (ChainIterator.next d1 g).2.1 d2 (ChainIterator.next d1 g).2.2 ∧
    Indep d2 d1 g :=
  ⟨(clone_spec hw).1, (clone_spec hw).2.1, (clone_spec hw).2.2,
   (indep_step hind).1, (indep_step hind).2, Indep_symm hind⟩

/-- Claim C2, witness: the chain over `[[1,2],[3,4]]` after one `next()`
(which consumed `1`), together with the pair produced by cloning it. -/
theorem c2_clone_independence_witness :
    WF (⟨[0, 1], 1, some 0, false⟩ : ChainIterator)
      ([⟨[1, 2], 1⟩, ⟨[3, 4], 0⟩] : Heap Nat) ∧
    Indep (⟨[0, 1], 1, some 0, true⟩ : ChainIterator) ⟨[0, 1], 1, some 2, true⟩
      ([⟨[1, 2], 1⟩, ⟨[3, 4], 0⟩, ⟨[1, 2], 1⟩] : Heap Nat) ∧
    (remainingL (ChainIterator.clone (⟨[0, 1], 1, some 0, false⟩ : ChainIterator)
        ([⟨[1, 2], 1⟩, ⟨[3, 4], 0⟩] : Heap Nat)).1
        (ChainIterator.clone (⟨[0, 1], 1, some 0, false⟩ : ChainIterator)
        ([⟨[1, 2], 1⟩, ⟨[3, 4], 0⟩] : Heap Nat)).2.2 =
      remainingL (⟨[0, 1], 1, some 0, false⟩ : ChainIterator)
        ([⟨[1, 2], 1⟩, ⟨[3, 4], 0⟩] : Heap Nat) ∧
    remainingL (ChainIterator.clone (⟨[0, 1], 1, some 0, false⟩ : ChainIterator)
        ([⟨[1, 2], 1⟩, ⟨[3, 4], 0⟩] : Heap Nat)).2.1
        (ChainIterator.clone (⟨[0, 1], 1, some 0, false⟩ : ChainIterator)
        ([⟨[1, 2], 1⟩, ⟨[3, 4], 0⟩] : Heap Nat)).2.2 =
      remainingL (⟨[0, 1], 1, some 0, false⟩ : ChainIterator)
        ([⟨[1, 2], 1⟩, ⟨[3, 4], 0⟩] : Heap Nat) ∧
    Indep (ChainIterator.clone (⟨[0, 1], 1, some 0, false⟩ : ChainIterator)
        ([⟨[1, 2], 1⟩, ⟨[3, 4], 0⟩] : Heap Nat)).1
      (ChainIterator.clone (⟨[0, 1], 1, some 0, false⟩ : ChainIterator)
        ([⟨[1, 2], 1⟩, ⟨[3, 4], 0⟩] : Heap Nat)).2.1
      (ChainIterator.clone (⟨[0, 1], 1, some 0, false⟩ : ChainIterator)
        ([⟨[1, 2], 1⟩, ⟨[3, 4], 0⟩] : Heap Nat)).2.2 ∧
    remainingL (⟨[0, 1], 1, some 2, true⟩ : ChainIterator)
        (ChainIterator.next (⟨[0, 1], 1, some 0, true⟩ : ChainIterator)
          ([⟨[1, 2], 1⟩, ⟨[3, 4], 0⟩, ⟨[1, 2], 1⟩] : Heap Nat)).2.2 =
      remainingL (⟨[0, 1], 1, some 2, true⟩ : ChainIterator)
        ([⟨[1, 2], 1⟩, ⟨[3, 4], 0⟩, ⟨[1, 2], 1⟩] : Heap Nat) ∧
    Indep (ChainIterator.next (⟨[0, 1], 1, some 0, true⟩ : ChainIterator)
        ([⟨[1, 2], 1⟩, ⟨[3, 4], 0⟩, ⟨[1, 2], 1⟩] : Heap Nat)).2.1
      (⟨[0, 1], 1, some 2, true⟩ : ChainIterator)
      (ChainIterator.next (⟨[0, 1], 1, some 0, true⟩ : ChainIterator)
        ([⟨[1, 2], 1⟩, ⟨[3, 4], 0⟩, ⟨[1, 2], 1⟩] : Heap Nat)).2.2 ∧
    Indep (⟨[0, 1], 1, some 2, true⟩ : ChainIterator) ⟨[0, 1], 1, some 0, true⟩
      ([⟨[1, 2], 1⟩, ⟨[3, 4], 0⟩, ⟨[1, 2], 1⟩] : Heap Nat)) :=
  ⟨by decide, by decide,
   c2_clone_independence (⟨[0, 1], 1, some 0, false⟩ : ChainIterator)
     ([⟨[1, 2], 1⟩, ⟨[3, 4], 0⟩] : Heap Nat) (by decide)
     (⟨[0, 1], 1, some 0, true⟩ : ChainIterator) ⟨[0, 1], 1, some 2, true⟩
     ([⟨[1, 2], 1⟩, ⟨[3, 4], 0⟩, ⟨[1, 2], 1⟩] : Heap Nat) (by decide)⟩

/-- Claim C3: `clone()` sets the `cloned` flag of both the original and the
new chain to `true`; the flag is sticky (`next` preserves it, and `clone` only
ever sets it); and when `next()` pulls a new sub-iterator from the outer
source while the flag is set, that sub-iterator is replaced by a copy in a
fresh heap cell before becoming active — consequently a `next()` call on a
flagged chain never modifies any pre-existing heap cell other than the
chain's own active cell. -/
theorem c3_defensive_clone_flag {T : Type} (c : ChainIterator) (h : Heap T)
    (j i : Nat) (hj : j < h.length) (hja : c.active ≠ some j) :
    (ChainIterator.clone c h).1.cloned = true ∧
    (ChainIterator.clone c h).2.1.cloned = true ∧
    (ChainIterator.next c h).2.1.cloned = c.cloned ∧
    (c.cloned = true → c.active = none → c.srcIds[c.srcIdx]? = some i →
      ChainIterator.next c h =
        ChainIterator.next { c with srcIdx := c.srcIdx + 1, active := some h.length }
          (h ++ [hGet h i])) ∧
    (c.cloned = true → hGet (ChainIterator.next c h).2.2 j = hGet h j) := by
  refine ⟨?_, ?_, (next_shape_aux (chainMeasure c) c h (le_refl _)).2.2,
    fun hc hA hS => next_pull_cloned hA hS hc,
    fun hc => next_frame_aux (chainMeasure c) c h (le_refl _) hc j hj hja⟩
  · unfold ChainIterator.clone
    cases hA : c.active <;> rfl
  · unfold ChainIterator.clone
    cases hA : c.active <;> rfl

/-- Claim C3, witness: a flagged chain over two sources, after its first
sub-iterator has been consumed and cleared. -/
theorem c3_defensive_clone_flag_witness :
    0 < ([⟨[1, 2], 1⟩, ⟨[3, 4], 0⟩] : Heap Nat).length ∧
    (⟨[0, 1], 1, none, true⟩ : ChainIterator).active ≠ some 0 ∧
    ((ChainIterator.clone (⟨[0, 1], 1, none, true⟩ : ChainIterator)
        ([⟨[1, 2], 1⟩, ⟨[3, 4], 0⟩] : Heap Nat)).1.cloned = true ∧
    (ChainIterator.clone (⟨[0, 1], 1, none, true⟩ : ChainIterator)
        ([⟨[1, 2], 1⟩, ⟨[3, 4], 0⟩] : Heap Nat)).2.1.cloned = true ∧
    (ChainIterator.next (⟨[0, 1], 1, none, true⟩ : ChainIterator)
        ([⟨[1, 2], 1⟩, ⟨[3, 4], 0⟩] : Heap Nat)).2.1.cloned =
      (⟨[0, 1], 1, none, true⟩ : ChainIterator).cloned ∧
    ((⟨[0, 1], 1, none, true⟩ : ChainIterator).cloned = true →
      (⟨[0, 1], 1, none, true⟩ : ChainIterator).active = none →
      (⟨[0, 1], 1, none, true⟩ : ChainIterator).srcIds[
        (⟨[0, 1], 1, none, true⟩ : ChainIterator).srcIdx]? = some 1 →
      ChainIterator.next (⟨[0, 1], 1, none, true⟩ : ChainIterator)
          ([⟨[1, 2], 1⟩, ⟨[3, 4], 0⟩] : Heap Nat) =
        ChainIterator.next ⟨[0, 1], 2, some 2, true⟩
          (([⟨[1, 2], 1⟩, ⟨[3, 4], 0⟩] : Heap Nat) ++
            [hGet ([⟨[1, 2], 1⟩, ⟨[3, 4], 0⟩] : Heap Nat) 1])) ∧
    ((⟨[0, 1], 1, none, true⟩ : ChainIterator).cloned = true →
      hGet (ChainIterator.next (⟨[0, 1], 1, none, true⟩ : ChainIterator)
        ([⟨[1, 2], 1⟩, ⟨[3, 4], 0⟩] : Heap Nat)).2.2 0 =
      hGet ([⟨[1, 2], 1⟩, ⟨[3, 4], 0⟩] : Heap Nat) 0)) :=
  ⟨by decide, by decide,
   c3_defensive_clone_flag (⟨[0, 1], 1, none, true⟩ : ChainIterator)
     ([⟨[1, 2], 1⟩, ⟨[3, 4], 0⟩] : Heap Nat) 0 1 (by decide) (by decide)⟩

/-- Claim C4: a single logical `next()` call drains any number of consecutive
exhausted sub-iterators without the caller observing intermediate exhaustion:
`next` returns exactly the head of the chain's remaining output (so it yields
a value whenever any remaining sub-iterator is non-empty, regardless of how
many empty ones precede it); and `chain([], [1,2], [], [3])` drained fully
yields exactly `[1,2,3]`. -/
theorem c4_empty_source_skipping {T : Type} (c : ChainIterator) (h : Heap T)
    (hw : WF c h) :
    (ChainIterator.next c h).1 = (remainingL c h).head? ∧
    drainFuel 5 (chain ([[], [1, 2], [], [3]] : List (List Nat))).1
      (chain ([[], [1, 2], [], [3]] : List (List Nat))).2 = [1, 2, 3] :=
  ⟨next_fst_eq_head hw, by decide⟩

/-- Claim C4, witness: the chain over `[[], [1,2], [], [3]]` itself. -/
theorem c4_empty_source_skipping_witness :
    WF (chain ([[], [1, 2], [], [3]] : List (List Nat))).1
      (chain ([[], [1, 2], [], [3]] : List (List Nat))).2 ∧
    ((ChainIterator.next (chain ([[], [1, 2], [], [3]] : List (List Nat))).1
        (chain ([[], [1, 2], [], [3]] : List (List Nat))).2).1 =
      (remainingL (chain ([[], [1, 2], [], [3]] : List (List Nat))).1
        (chain ([[], [1, 2], [], [3]] : List (List Nat))).2).head? ∧
    drainFuel 5 (chain ([[], [1, 2], [], [3]] : List (List Nat))).1
      (chain ([[], [1, 2], [], [3]] : List (List Nat))).2 = [1, 2, 3]) :=
  ⟨by decide,
   c4_empty_source_skipping (chain ([[], [1, 2], [], [3]] : List (List Nat))).1
     (chain ([[], [1, 2], [], [3]] : List (List Nat))).2 (by decide)⟩

/-- Claim C5: once a chain's `next()` has signaled exhaustion, every
subsequent `next()` call returns exhaustion with the state unchanged (the
embedded outer iterator conforms to the no-resurrection rule by
construction), so the chain never again yields a value. -/
theorem c5_idempotent_exhaustion {T : Type} (c c' : ChainIterator)
    (h h' : Heap T) (he : ChainIterator.next c h = (none, c', h')) :
    ChainIterator.next c' h' = (none, c', h') :=
  next_none_fix_aux (chainMeasure c) c h (le_refl _) c' h' he

/-- Claim C5, witness: the chain over `[[], []]` signals exhaustion on its
first `next()`, and the state it returns is a fixed point. -/
theorem c5_idempotent_exhaustion_witness :
    ChainIterator.next (⟨[0, 1], 2, none, false⟩ : ChainIterator)
      ([⟨[], 0⟩, ⟨[], 0⟩] : Heap Nat) =
    (none, ⟨[0, 1], 2, none, false⟩, ([⟨[], 0⟩, ⟨[], 0⟩] : Heap Nat)) :=
  c5_idempotent_exhaustion (chain ([[], []] : List (List Nat))).1
    ⟨[0, 1], 2, none, false⟩ (chain ([[], []] : List (List Nat))).2
    ([⟨[], 0⟩, ⟨[], 0⟩] : Heap Nat) (by decide)

/-- Claim C6 exhibit (the source violates the claim): the chain signals
exhaustion with the same sentinel that stands for the value `undefined`, so a
source containing the element `undefined` (embedded as `none`) is cut short —
`chain([[undefined, 1]])` drains to `[]` even though a genuine element `1`
remains, while the same chain over `[[0, 1]]` drains to `[0, 1]`. -/
theorem c6_sentinel_exhaustion_collision :
    sentinelDrain 5 (sentinelChain [[none, some 1]]) = ([] : List Nat) ∧
    sentinelDrain 5 (sentinelChain [[some 0, some 1]]) = ([0, 1] : List Nat) :=
  ⟨by decide, by decide⟩

/-- Claim C7 exhibit (the source violates the iteration clause): one `next()`
call on a chain of `n` consecutive empty sources re-enters `next` once per
empty source (`return this.next()` at `chain.ts` line 100), so its call depth
is `n + 1` — linear in the number of consecutive exhausted sub-iterators, not
constant as an iterative implementation would give. -/
theorem c7_next_recursion_depth (n : Nat) :
    nextDepth (chain (List.replicate n ([] : List Nat))).1
      (chain (List.replicate n ([] : List Nat))).2 = n + 1 := by
  unfold nextDepth chain
  simp only [List.length_replicate, List.map_replicate]
  have hme : chainMeasure (⟨List.range n, 0, none, false⟩ : ChainIterator) =
      2 * n := by
    simp [chainMeasure]
  rw [hme]
  have := nextDepthGas_empties (T := Nat) (2 * n + 1) n 0 (by omega)
  simpa using this

/-- Claim C8: `hitTest(node, x, y)` returns `true` exactly when the point lies
in the node's bounding rectangle under half-open semantics — left and top
inclusive, right and bottom exclusive; for the rectangle `[0,100)×[0,100)` it
is `true` at `(0,0)` and `(99,99)` and `false` at `(100,50)` and `(50,100)`. -/
theorem c8_hitTest_half_open (rect : Rect) (x y : ℤ) :
    (hitTest rect x y = true ↔
      (rect.left ≤ x ∧ x < rect.right ∧ rect.top ≤ y ∧ y < rect.bottom)) ∧
    hitTest ⟨0, 0, 100, 100⟩ 0 0 = true ∧
    hitTest ⟨0, 0, 100, 100⟩ 99 99 = true ∧
    hitTest ⟨0, 0, 100, 100⟩ 100 50 = false ∧
    hitTest ⟨0, 0, 100, 100⟩ 50 100 = false := by
  refine ⟨?_, by decide, by decide, by decide, by decide⟩
  unfold hitTest
  simp [Bool.and_eq_true, decide_eq_true_eq, ge_iff_le, and_assoc]

/-- Claim C9, counterexample: with threshold 10, container `[0,100)` and an
element at `[-20,-10)` (20 above the top), the code changes `scrollTop` by
`-30`, yet a change of `-10` (magnitude 10 < 30) already puts the element
within the threshold tolerance of the visible bounds — so the adjustment is
not the minimal amount needed. -/
theorem c9_minimality_counterexample :
    (scrollIfNeeded ⟨50, 7⟩ ⟨0, 0, 100, 100⟩ ⟨0, -20, 50, -10⟩ 10).scrollTop = 20 ∧
    (scrollIfNeeded ⟨50, 7⟩ ⟨0, 0, 100, 100⟩ ⟨0, -20, 50, -10⟩ 10).scrollTop - 50 =
      -30 ∧
    withinTol ⟨0, 0, 100, 100⟩ (shiftRect ⟨0, -20, 50, -10⟩ (-10)) 10 ∧
    |(-10 : ℤ)| < |(-30 : ℤ)| :=
  ⟨by decide, by decide, by decide, by decide⟩

/-- Claim C9 as amended: `scrollIfNeeded` is a no-op when the element is
within the container's bounds expanded by `threshold`; otherwise it scrolls
so the violated edge lands exactly `threshold` pixels *inside* the
corresponding container edge (top edge preferred when the element is above),
which coincides with the minimal needed adjustment exactly when
`threshold = 0` and the element fits in the container: the scrolled position
is then within bounds, and any strictly smaller scroll magnitude is not. -/
theorem c9_scroll_amended (a : AreaState) (ar er : Rect) (t d : ℤ) :
    (withinTol ar er t → scrollIfNeeded a ar er t = a) ∧
    (er.top < ar.top - t →
      (scrollIfNeeded a ar er t).scrollTop = a.scrollTop - (ar.top - er.top + t) ∧
      (shiftRect er ((scrollIfNeeded a ar er t).scrollTop - a.scrollTop)).top =
        ar.top + t) ∧
    (¬ er.top < ar.top - t → er.bottom > ar.bottom + t →
      (scrollIfNeeded a ar er t).scrollTop = a.scrollTop + (er.bottom - ar.bottom + t) ∧
      (shiftRect er ((scrollIfNeeded a ar er t).scrollTop - a.scrollTop)).bottom =
        ar.bottom - t) ∧
    (t = 0 → er.bottom - er.top ≤ ar.bottom - ar.top →
      withinTol ar (shiftRect er ((scrollIfNeeded a ar er 0).scrollTop - a.scrollTop)) 0) ∧
    (t = 0 → er.bottom - er.top ≤ ar.bottom - ar.top →
      |d| < |(scrollIfNeeded a ar er 0).scrollTop - a.scrollTop| →
      ¬ withinTol ar (shiftRect er d) 0) := by
  unfold scrollIfNeeded withinTol shiftRect
  refine ⟨?_, ?_, ?_, ?_, ?_⟩
  · intro hw
    obtain ⟨w1, w2⟩ := hw
    rw [if_neg (by omega), if_neg (by omega)]
  · intro h1
    rw [if_pos h1]
    exact ⟨rfl, by simp only []; omega⟩
  · intro h1 h2
    rw [if_neg h1, if_pos h2]
    exact ⟨rfl, by simp only []; omega⟩
  · intro ht hfit
    by_cases h1 : er.top < ar.top - 0
    · rw [if_pos h1]
      simp only []
      constructor <;> omega
    · rw [if_neg h1]
      by_cases h2 : er.bottom > ar.bottom + 0
      · rw [if_pos h2]
        simp only []
        constructor <;> omega
      · rw [if_neg h2]
        simp only []
        constructor <;> omega
  · intro ht hfit habs hcontra
    obtain ⟨w1, w2⟩ := hcontra
    simp only [] at w1 w2
    have hd1 : -|d| ≤ d := neg_abs_le d
    have hd2 : d ≤ |d| := le_abs_self d
    by_cases h1 : er.top < ar.top - 0
    · rw [if_pos h1] at habs
      simp only [] at habs
      have he : a.scrollTop - (ar.top - er.top + 0) - a.scrollTop =
          -(ar.top - er.top) := by ring
      rw [he, abs_neg,
        abs_of_nonneg (show (0 : ℤ) ≤ ar.top - er.top from by omega)] at habs
      omega
    · rw [if_neg h1] at habs
      by_cases h2 : er.bottom > ar.bottom + 0
      · rw [if_pos h2] at habs
        simp only [] at habs
        have he : a.scrollTop + (er.bottom - ar.bottom + 0) - a.scrollTop =
            er.bottom - ar.bottom := by ring
        rw [he,
          abs_of_nonneg (show (0 : ℤ) ≤ er.bottom - ar.bottom from by omega)] at habs
        omega
      · rw [if_neg h2] at habs
        simp only [sub_self, abs_zero] at habs
        have := abs_nonneg d
        omega

/-- Claim C9, witness for the amended claim: container `[0,100)`, element at
`[-20,-10)`, threshold 0 — the code scrolls the top edge flush to the
container top (`scrollTop` 50 → 30), and no scroll of magnitude below 20
(e.g. `-19`) brings the element within bounds. -/
theorem c9_scroll_amended_witness :
    ((-20 : ℤ) < 0 - 0) ∧
    ((scrollIfNeeded ⟨50, 7⟩ ⟨0, 0, 100, 100⟩ ⟨0, -20, 50, -10⟩ 0).scrollTop =
        50 - (0 - -20 + 0) ∧
      (shiftRect ⟨0, -20, 50, -10⟩
        ((scrollIfNeeded ⟨50, 7⟩ ⟨0, 0, 100, 100⟩ ⟨0, -20, 50, -10⟩ 0).scrollTop -
          50)).top = 0 + 0) ∧
    ¬ withinTol ⟨0, 0, 100, 100⟩ (shiftRect ⟨0, -20, 50, -10⟩ (-19)) 0 :=
  ⟨by decide,
   (c9_scroll_amended ⟨50, 7⟩ ⟨0, 0, 100, 100⟩ ⟨0, -20, 50, -10⟩ 0 (-19)).2.1
     (by decide),
   (c9_scroll_amended ⟨50, 7⟩ ⟨0, 0, 100, 100⟩ ⟨0, -20, 50, -10⟩ 0 (-19)).2.2.2.2
     rfl (by decide) (by decide)⟩

/-- Claim C10: `scrollIfNeeded` mutates at most the `scrollTop` of the scroll
area: `scrollLeft` is unchanged in every case, the result is entirely
independent of the horizontal extents of both rectangles (so horizontal
overflow never triggers any adjustment), and when the element is within the
vertical tolerance nothing changes at all. -/
theorem c10_scroll_frame_effect (a : AreaState) (ar er : Rect)
    (t l r l2 r2 : ℤ) :
    (scrollIfNeeded a ar er t).scrollLeft = a.scrollLeft ∧
    scrollIfNeeded a ⟨l, ar.top, r, ar.bottom⟩ ⟨l2, er.top, r2, er.bottom⟩ t =
      scrollIfNeeded a ar er t ∧
    (withinTol ar er t → scrollIfNeeded a ar er t = a) := by
  refine ⟨?_, ?_, ?_⟩
  · unfold scrollIfNeeded
    split_ifs <;> rfl
  · rfl
  · intro hw
    obtain ⟨w1, w2⟩ := hw
    unfold scrollIfNeeded
    rw [if_neg (by omega), if_neg (by omega)]

/-- Claim C10, witness: an element overflowing only horizontally (right edge
at 300 against a container right edge of 100) triggers no adjustment. -/
theorem c10_scroll_frame_effect_witness :
    withinTol ⟨0, 0, 100, 100⟩ ⟨0, 5, 300, 50⟩ 0 ∧
    (scrollIfNeeded ⟨50, 7⟩ ⟨0, 0, 100, 100⟩ ⟨0, 5, 300, 50⟩ 0).scrollLeft = 7 ∧
    scrollIfNeeded ⟨50, 7⟩ ⟨0, 0, 100, 100⟩ ⟨0, 5, 300, 50⟩ 0 = ⟨50, 7⟩ :=
  ⟨by decide,
   (c10_scroll_frame_effect ⟨50, 7⟩ ⟨0, 0, 100, 100⟩ ⟨0, 5, 300, 50⟩ 0 0 100 0 300).1,
   (c10_scroll_frame_effect ⟨50, 7⟩ ⟨0, 0, 100, 100⟩ ⟨0, 5, 300, 50⟩ 0 0 100 0 300).2.2
     (by decide)⟩
